import Mathlib

namespace Yuki

/-!
# Verification of the `yuki` spatial subsystem

Shallow embedding of the 2D spatial subsystem of the `yuki` toolkit
(`src/spatial/{point,direction,area,matrix}.rs` and `src/num.rs`) and proofs
of the specified properties.

Conventions of the embedding:
* Machine integers of a concrete Rust type are modelled as mathematical
  integers (`Int`) together with an explicit range `IntTy` (`lo ≤ z ≤ hi`);
  a fallible conversion (`TryInto` / `TryFrom`) between integer types
  succeeds exactly when the value lies in the target range.
* `usize` indices and lengths are modelled as `Nat`.
* A Rust operation that can panic (slice indexing out of bounds,
  `Option::unwrap` on `None`) is modelled as an `Option`/`Except` returning
  function, `none` standing for the panic.
-/

/-- `Point<T>` from `src/spatial/point.rs`: `{ x: T, y: T }`. -/
structure Point (α : Type) where
  x : α
  y : α
  deriving DecidableEq, Repr

/-- Componentwise addition, as derived by `derive_more::Add` on `Point`. -/
instance {α : Type} [Add α] : Add (Point α) :=
  ⟨fun a b => ⟨a.x + b.x, a.y + b.y⟩⟩

/-- The value range of a concrete Rust integer type: the integers `z` with
`lo ≤ z ≤ hi`. -/
structure IntTy where
  lo : Int
  hi : Int
  deriving DecidableEq, Repr

/-- The range of `u8`. -/
def IntTy.u8 : IntTy := ⟨0, 255⟩

/-- The range of `i8`. -/
def IntTy.i8 : IntTy := ⟨-128, 127⟩

/-- Membership of an integer in the range of an integer type. -/
def IntTy.mem (t : IntTy) (z : Int) : Prop := t.lo ≤ z ∧ z ≤ t.hi

instance (t : IntTy) (z : Int) : Decidable (t.mem z) := by
  unfold IntTy.mem; infer_instance

/-- `TryInto` between integer types: the conversion succeeds, preserving the
value, exactly when the value is representable in the target type. -/
def tryCast (t : IntTy) (z : Int) : Option Int :=
  if t.mem z then some z else none

/-- `Point::cast` (`src/spatial/point.rs`): componentwise fallible
conversion, `x` first, short-circuiting. -/
def Point.cast (t : IntTy) (p : Point Int) : Option (Point Int) := do
  let x ← tryCast t p.x
  let y ← tryCast t p.y
  pure ⟨x, y⟩

/-- `checked_add_signed` (`src/num.rs`): the exact sum if it is
representable in the type, otherwise `None`. -/
def checkedAddSigned (t : IntTy) (a d : Int) : Option Int :=
  tryCast t (a + d)

/-- `Point::add_signed` (`src/spatial/point.rs`): componentwise
checked-signed add, `x` first, short-circuiting. -/
def Point.addSigned (t : IntTy) (p : Point Int) (d : Int × Int) :
    Option (Point Int) := do
  let x ← checkedAddSigned t p.x d.1
  let y ← checkedAddSigned t p.y d.2
  pure ⟨x, y⟩

/-! ## Directions (`src/spatial/direction.rs`) -/

/-- The `Cardinal` direction enumeration, in declared order. -/
inductive Cardinal where
  | north
  | east
  | south
  | west
  deriving DecidableEq, Repr, Fintype

/-- The `Ordinal` direction enumeration, in declared order. -/
inductive Ordinal where
  | northEast
  | southEast
  | southWest
  | northWest
  deriving DecidableEq, Repr, Fintype

/-- The `Compass` direction enumeration. -/
inductive Compass where
  | cardinal (d : Cardinal)
  | ordinal (d : Ordinal)
  deriving DecidableEq, Repr, Fintype

/-- The `Rotation` enumeration. -/
inductive Rotation where
  | clockwise
  | counterClockwise
  deriving DecidableEq, Repr, Fintype

/-- `Cardinal::vector`: the unit displacement, `y` growing downward. -/
def Cardinal.vector : Cardinal → Int × Int
  | .north => (0, -1)
  | .east => (1, 0)
  | .south => (0, 1)
  | .west => (-1, 0)

/-- `Ordinal::vector`. -/
def Ordinal.vector : Ordinal → Int × Int
  | .northEast => (1, -1)
  | .southEast => (1, 1)
  | .southWest => (-1, 1)
  | .northWest => (-1, -1)

/-- `Compass::vector`. -/
def Compass.vector : Compass → Int × Int
  | .cardinal d => d.vector
  | .ordinal d => d.vector

/-- `Cardinal::all`: every variant exactly once, in declared order. -/
def Cardinal.all : List Cardinal := [.north, .east, .south, .west]

/-- `Ordinal::all`. -/
def Ordinal.all : List Ordinal := [.northEast, .southEast, .southWest, .northWest]

/-- `Compass::all`: interleaved Cardinal/Ordinal in compass order. -/
def Compass.all : List Compass :=
  [.cardinal .north, .ordinal .northEast, .cardinal .east, .ordinal .southEast,
   .cardinal .south, .ordinal .southWest, .cardinal .west, .ordinal .northWest]

/-- `Cardinal::turn`, transcribed from the match table. -/
def Cardinal.turn : Cardinal → Rotation → Cardinal
  | .north, .clockwise => .east
  | .south, .counterClockwise => .east
  | .east, .clockwise => .south
  | .west, .counterClockwise => .south
  | .south, .clockwise => .west
  | .north, .counterClockwise => .west
  | .west, .clockwise => .north
  | .east, .counterClockwise => .north

/-- `Ordinal::turn`, transcribed from the match table. -/
def Ordinal.turn : Ordinal → Rotation → Ordinal
  | .northEast, .clockwise => .southEast
  | .southWest, .counterClockwise => .southEast
  | .southEast, .clockwise => .southWest
  | .northWest, .counterClockwise => .southWest
  | .southWest, .clockwise => .northWest
  | .northEast, .counterClockwise => .northWest
  | .northWest, .clockwise => .northEast
  | .southEast, .counterClockwise => .northEast

/-- `Compass::turn`, transcribed from the match table. -/
def Compass.turn : Compass → Rotation → Compass
  | .cardinal .north, .clockwise => .ordinal .northEast
  | .cardinal .east, .counterClockwise => .ordinal .northEast
  | .cardinal .east, .clockwise => .ordinal .southEast
  | .cardinal .south, .counterClockwise => .ordinal .southEast
  | .cardinal .south, .clockwise => .ordinal .southWest
  | .cardinal .west, .counterClockwise => .ordinal .southWest
  | .cardinal .west, .clockwise => .ordinal .northWest
  | .cardinal .north, .counterClockwise => .ordinal .northWest
  | .ordinal .northEast, .clockwise => .cardinal .east
  | .ordinal .southEast, .counterClockwise => .cardinal .east
  | .ordinal .southEast, .clockwise => .cardinal .south
  | .ordinal .southWest, .counterClockwise => .cardinal .south
  | .ordinal .southWest, .clockwise => .cardinal .west
  | .ordinal .northWest, .counterClockwise => .cardinal .west
  | .ordinal .northWest, .clockwise => .cardinal .north
  | .ordinal .northEast, .counterClockwise => .cardinal .north

/-- Iterated clockwise turning. -/
def Compass.turnCW (n : Nat) (d : Compass) : Compass :=
  match n with
  | 0 => d
  | n + 1 => Compass.turnCW n (d.turn .clockwise)

/-- Iterated clockwise turning of a Cardinal direction. -/
def Cardinal.turnCW (n : Nat) (d : Cardinal) : Cardinal :=
  match n with
  | 0 => d
  | n + 1 => Cardinal.turnCW n (d.turn .clockwise)

/-- Iterated clockwise turning of an Ordinal direction. -/
def Ordinal.turnCW (n : Nat) (d : Ordinal) : Ordinal :=
  match n with
  | 0 => d
  | n + 1 => Ordinal.turnCW n (d.turn .clockwise)

/-! ## Point ordering (`src/spatial/point.rs`, `Ord`/`PartialOrd`) -/

/-- `Ord::cmp` for a Rust integer type, as a three-way comparison. -/
def intCmp (a b : Int) : Ordering :=
  if a < b then .lt else if a = b then .eq else .gt

/-- `Ord for Point`: compare `y` first, tie-broken by `x`
(`self.y.cmp(&other.y).then(self.x.cmp(&other.x))`). -/
def Point.cmp (a b : Point Int) : Ordering :=
  (intCmp a.y b.y).then (intCmp a.x b.x)

/-- `PartialOrd for Point`: `Some(self.cmp(other))`. -/
def Point.partialCmp (a b : Point Int) : Option Ordering :=
  some (Point.cmp a b)

/-! ## Neighbours (`src/spatial/point.rs`, `Point::neighbours`) -/

/-- `Point::neighbours`: `D::all().filter_map(|d| self.add_signed(d.vector()))`,
with the direction family given by its `all` list and `vector` table. -/
def Point.neighbours {δ : Type} (t : IntTy) (p : Point Int)
    (dirs : List δ) (vector : δ → Int × Int) : List (Point Int) :=
  dirs.filterMap (fun d => p.addSigned t (vector d))

/-! ## Area and containment (`src/spatial/area.rs`) -/

/-- `Area<T>` from `src/spatial/area.rs`:
`{ position: Point<T>, dimensions: (usize, usize) }`. -/
structure Area where
  position : Point Int
  dimensions : Nat × Nat
  deriving DecidableEq, Repr

/-- `Area::surface_area`: `width * height`. -/
def Area.surfaceArea (a : Area) : Nat := a.dimensions.1 * a.dimensions.2

/-- `Area::contains` (`src/spatial/area.rs` lines 40-51): first computes
`bottom_right = position + dimensions.cast::<T>().unwrap()` (the `unwrap`
panics — `none` — when the dimensions are not representable in `T`, and the
`+` is `T` addition, which fails when the sum leaves `T`'s range), then
casts the query point (returning `false` on failure) and tests the
half-open box. -/
def Area.contains (t : IntTy) (a : Area) (q : Point Int) : Option Bool :=
  match Point.cast t ⟨(a.dimensions.1 : Int), (a.dimensions.2 : Int)⟩ with
  | none => none
  | some d =>
    match tryCast t (a.position.x + d.x), tryCast t (a.position.y + d.y) with
    | some brx, some bry =>
      match Point.cast t q with
      | none => some false
      | some p => some (decide (p.x ≥ a.position.x ∧ p.y ≥ a.position.y
          ∧ p.x < brx ∧ p.y < bry))
    | _, _ => none

/-! ## Area iteration (`src/spatial/area.rs`, `Iter`) -/

/-- The iterator over an `Area`'s points (`Iter` in `src/spatial/area.rs`):
`{ area, index, end }`; the source field `end` is called `stop` here since
`end` is reserved. -/
structure AreaIter where
  area : Area
  index : Nat
  stop : Nat
  deriving DecidableEq, Repr

/-- `IntoIterator for Area`: `index = 0`, `end = surface_area()`. -/
def Area.iter (a : Area) : AreaIter :=
  ⟨a, 0, a.surfaceArea⟩

/-- The point produced from linear offset `i`:
`position + Point { x: i % width, y: i / width }.cast::<T>().unwrap()`.
`none` models the panic: the `unwrap` when the offset is not representable
in `T`, and the overflow of the componentwise `T` additions. -/
def Area.pointAt (t : IntTy) (a : Area) (i : Nat) : Option (Point Int) :=
  match Point.cast t ⟨((i % a.dimensions.1 : Nat) : Int),
      ((i / a.dimensions.1 : Nat) : Int)⟩ with
  | none => none
  | some off =>
    match tryCast t (a.position.x + off.x), tryCast t (a.position.y + off.y) with
    | some x, some y => some ⟨x, y⟩
    | _, _ => none

/-- `Iterator::next` for `Iter`: the outer `none` models a panic inside
`next`; `some none` is Rust's `None` (`index ≥ end`); otherwise the yielded
point at offset `index` with `index += 1`. -/
def AreaIter.next (t : IntTy) (it : AreaIter) :
    Option (Option (Point Int × AreaIter)) :=
  if it.stop ≤ it.index then some none
  else
    match Area.pointAt t it.area it.index with
    | none => none
    | some p => some (some (p, ⟨it.area, it.index + 1, it.stop⟩))

/-- `DoubleEndedIterator::next_back` for `Iter`: `some none` once
`end ≤ index`, else `end -= 1` and the point at offset `end`; the outer
`none` models a panic. -/
def AreaIter.nextBack (t : IntTy) (it : AreaIter) :
    Option (Option (Point Int × AreaIter)) :=
  if it.stop ≤ it.index then some none
  else
    match Area.pointAt t it.area (it.stop - 1) with
    | none => none
    | some p => some (some (p, ⟨it.area, it.index, it.stop - 1⟩))

/-- One advance of the cursor, from the front (`true`) or the back
(`false`); a panic propagates, an exhausted iterator is left unchanged and
yields nothing. -/
def AreaIter.step (t : IntTy) (it : AreaIter) (forward : Bool) :
    Option (Option (Point Int) × AreaIter) :=
  match (if forward then it.next t else it.nextBack t) with
  | none => none
  | some none => some (none, it)
  | some (some (p, it2)) => some (some p, it2)

/-- Run a sequence of front/back advances, collecting the yielded points in
order; `none` as soon as any step panics. -/
def AreaIter.run (t : IntTy) : AreaIter → List Bool →
    Option (List (Point Int) × AreaIter)
  | it, [] => some ([], it)
  | it, b :: bs => do
    let s ← it.step t b
    let r ← AreaIter.run t s.2 bs
    pure (s.1.toList ++ r.1, r.2)

/-- The row-major list of the area's points whose offset and sum survive
the `T` casts — under the no-panic hypothesis, all `w*h` of them. -/
def Area.points (t : IntTy) (a : Area) : List (Point Int) :=
  (List.range a.surfaceArea).filterMap (Area.pointAt t a)

/-- The points the cursor pair has yet to yield. -/
def AreaIter.remaining (t : IntTy) (it : AreaIter) : List (Point Int) :=
  (List.range' it.index (it.stop - it.index)).filterMap (Area.pointAt t it.area)

/-! ## Bounding area (`src/spatial/area.rs`, `Area::bounding_area`) -/

/-- One step of the fold inside `bounding_area`: widen the running
componentwise (min, max) pair by the next point. -/
def boundsStep (bounds : Option (Point Int × Point Int)) (p : Point Int) :
    Option (Point Int × Point Int) :=
  some (match bounds with
    | none => (p, p)
    | some (lo, hi) =>
      (⟨min lo.x p.x, min lo.y p.y⟩, ⟨max hi.x p.x, max hi.y p.y⟩))

/-- The fold inside `bounding_area`, starting from `None`. -/
def foldBounds (ps : List (Point Int)) : Option (Point Int × Point Int) :=
  ps.foldl boundsStep none

/-- `TryInto<usize>` applied componentwise: exact conversion of a signed
point to unsigned coordinates, failing on a negative component. -/
def Point.castNat (p : Point Int) : Option (Point Nat) :=
  if 0 ≤ p.x ∧ 0 ≤ p.y then some ⟨p.x.toNat, p.y.toNat⟩ else none

/-- `Area::bounding_area` (`src/spatial/area.rs` lines 54-73): fold the
componentwise min/max; an empty fold yields `from_dimensions(0, 0)`;
otherwise the dimensions are
`(bottom_right - top_left).cast::<usize>().unwrap() + Point::one()`.
The subtraction `bottom_right - top_left` is `T` subtraction, so each
component must itself be representable in `T` (`none` models its overflow
panic), and the `cast::<usize>().unwrap()` panics on a negative component
(`none` as well). -/
def Area.boundingArea (t : IntTy) (ps : List (Point Int)) : Option Area :=
  match foldBounds ps with
  | none => some ⟨⟨0, 0⟩, (0, 0)⟩
  | some (lo, hi) =>
    match tryCast t (hi.x - lo.x), tryCast t (hi.y - lo.y) with
    | some dx, some dy =>
      match Point.castNat ⟨dx, dy⟩ with
      | none => none
      | some d => some ⟨lo, (d.x + 1, d.y + 1)⟩
    | _, _ => none

/-- The bounding rectangle as the claim words it: position is the
componentwise minimum, dimensions are `max - min + 1` per axis converted
to unsigned; the zero area at the origin for no points. -/
def boundingSpec (ps : List (Point Int)) : Area :=
  match ps with
  | [] => ⟨⟨0, 0⟩, (0, 0)⟩
  | p :: rest =>
    let mnx := rest.foldl (fun m q => min m q.x) p.x
    let mny := rest.foldl (fun m q => min m q.y) p.y
    let mxx := rest.foldl (fun m q => max m q.x) p.x
    let mxy := rest.foldl (fun m q => max m q.y) p.y
    ⟨⟨mnx, mny⟩, ((mxx - mnx).toNat + 1, (mxy - mny).toNat + 1)⟩

/-- The x-axis spread `max.x - min.x` of a point list (`0` when empty) —
the value `bounding_area` must represent in `T`. -/
def spreadX : List (Point Int) → Int
  | [] => 0
  | p :: rest =>
    rest.foldl (fun m q => max m q.x) p.x - rest.foldl (fun m q => min m q.x) p.x

/-- The y-axis spread `max.y - min.y` of a point list (`0` when empty). -/
def spreadY : List (Point Int) → Int
  | [] => 0
  | p :: rest =>
    rest.foldl (fun m q => max m q.y) p.y - rest.foldl (fun m q => min m q.y) p.y

/-! ## Matrix (`src/spatial/matrix.rs`) -/

/-- `Matrix<T>`: `{ data: Box<[T]>, columns: usize }`. -/
structure Matrix (α : Type) where
  data : List α
  columns : Nat
  deriving DecidableEq, Repr

/-- `Matrix::cols`. -/
def Matrix.cols {α : Type} (m : Matrix α) : Nat := m.columns

/-- `Matrix::rows`: `0` when `columns == 0`, else `data.len() / columns`. -/
def Matrix.rows {α : Type} (m : Matrix α) : Nat :=
  match m.columns with
  | 0 => 0
  | c => m.data.length / c

/-- `Index for Matrix`: `&self.data[y * self.columns + x]`; `none` models
the slice-index panic. -/
def Matrix.index {α : Type} (m : Matrix α) (p : Point Nat) : Option α :=
  m.data[p.y * m.columns + p.x]?

/-- `IndexMut for Matrix`: the code destructures `let (row, col) =
index.into()`, and `From<Point<T>> for (T, T)` yields `(x, y)`, so the
mutable reference addresses linear index `row * columns + col =
x * self.columns + y`; writing through it replaces that element. `none`
models the slice-index panic. -/
def Matrix.indexMutWrite {α : Type} (m : Matrix α) (p : Point Nat) (v : α) :
    Option (Matrix α) :=
  if p.x * m.columns + p.y < m.data.length
  then some ⟨m.data.set (p.x * m.columns + p.y) v, m.columns⟩
  else none

/-- `Matrix::get`: `(x < self.cols() && y < self.rows()).then(|| self.index(index))`. -/
def Matrix.get {α : Type} (m : Matrix α) (p : Point Nat) : Option α :=
  if p.x < m.cols ∧ p.y < m.rows then m.index p else none

/-- The `VariableRows` construction error. -/
inductive VariableRows where
  | mk
  deriving DecidableEq, Repr

/-- The row-collection loop inside `try_from_iter`: tracks the expected
column count (`None` before the first row), appends each conforming row's
elements, and fails with `VariableRows` at the first row whose length
differs from the expected one. -/
def collectRows {α : Type} (cols : Option Nat) :
    List (List α) → Except VariableRows (List α × Option Nat)
  | [] => .ok ([], cols)
  | r :: rest =>
    match cols with
    | some expected =>
      if r.length = expected then
        match collectRows (some expected) rest with
        | .ok (d, c) => .ok (r ++ d, c)
        | .error e => .error e
      else .error .mk
    | none =>
      match collectRows (some r.length) rest with
      | .ok (d, c) => .ok (r ++ d, c)
      | .error e => .error e

/-- `Matrix::try_from_iter`: collect the rows, the resulting column count
being `columns.unwrap_or_default()`. -/
def Matrix.tryFromIter {α : Type} (rows : List (List α)) :
    Except VariableRows (Matrix α) :=
  match collectRows none rows with
  | .ok (d, c) => .ok ⟨d, c.getD 0⟩
  | .error e => .error e

/-- The column count fixed by the first row (`0` when there are no rows). -/
def firstRowLength {α : Type} (rows : List (List α)) : Nat :=
  (rows.head?.getD []).length

/-- A matrix that was actually produced by `try_from_iter` from some
sequence of rows — the only way the code builds one. -/
def Matrix.builtFromRows {α : Type} (m : Matrix α) : Prop :=
  ∃ rows : List (List α), Matrix.tryFromIter rows = .ok m

/-! ## Transpose (`src/spatial/matrix.rs`, `Matrix::transpose`) -/

/-- Rust's `Iterator::step_by(k)` on a list: the elements at offsets
`0, k, 2k, …`. -/
def stepBy {α : Type} (k : Nat) : List α → List α
  | [] => []
  | a :: rest => a :: stepBy k (rest.drop (k - 1))
termination_by l => l.length
decreasing_by
  simp only [List.length_drop, List.length_cons]
  omega

/-- `Matrix::iter_cols`: for each column index `col`, the backing storage
skipped by `col` and strided by `columns`. -/
def Matrix.iterCols {α : Type} (m : Matrix α) : List (List α) :=
  (List.range m.columns).map (fun col => stepBy m.columns (m.data.drop col))

/-- `Matrix::transpose`: the new column count is `self.rows()` and the new
data is `iter_cols` flattened. -/
def Matrix.transpose {α : Type} (m : Matrix α) : Matrix α :=
  ⟨m.iterCols.flatten, m.rows⟩

/-! ## Properties -/

theorem Point.add_def {α : Type} [Add α] (a b : Point α) :
    a + b = ⟨a.x + b.x, a.y + b.y⟩ := rfl

/-- C9: for every direction of every family, turning clockwise then
counter-clockwise (and vice versa) is the identity; four clockwise turns fix
every Cardinal and every Ordinal direction; `Compass::turn` maps every
Cardinal variant to an Ordinal variant and vice versa, and eight clockwise
turns fix every Compass direction. -/
theorem direction_turn_spec :
    (∀ d : Cardinal, (d.turn .clockwise).turn .counterClockwise = d
      ∧ (d.turn .counterClockwise).turn .clockwise = d)
    ∧ (∀ d : Ordinal, (d.turn .clockwise).turn .counterClockwise = d
      ∧ (d.turn .counterClockwise).turn .clockwise = d)
    ∧ (∀ d : Compass, (d.turn .clockwise).turn .counterClockwise = d
      ∧ (d.turn .counterClockwise).turn .clockwise = d)
    ∧ (∀ d : Cardinal, Cardinal.turnCW 4 d = d)
    ∧ (∀ d : Ordinal, Ordinal.turnCW 4 d = d)
    ∧ (∀ (d : Cardinal) (r : Rotation), ∃ o : Ordinal,
        Compass.turn (.cardinal d) r = .ordinal o)
    ∧ (∀ (d : Ordinal) (r : Rotation), ∃ c : Cardinal,
        Compass.turn (.ordinal d) r = .cardinal c)
    ∧ (∀ d : Compass, Compass.turnCW 8 d = d) := by
  refine ⟨?_, ?_, ?_, ?_, ?_, ?_, ?_, ?_⟩ <;> decide

theorem pointCmp_lt {a b : Point Int} :
    Point.cmp a b = .lt ↔ (a.y < b.y ∨ (a.y = b.y ∧ a.x < b.x)) := by
  simp only [Point.cmp, intCmp]
  split_ifs <;> simp only [Ordering.then] <;> simp <;> omega

theorem pointCmp_gt {a b : Point Int} :
    Point.cmp a b = .gt ↔ (b.y < a.y ∨ (a.y = b.y ∧ b.x < a.x)) := by
  simp only [Point.cmp, intCmp]
  split_ifs <;> simp only [Ordering.then] <;> simp <;> omega

theorem pointCmp_eq {a b : Point Int} :
    Point.cmp a b = .eq ↔ (a.y = b.y ∧ a.x = b.x) := by
  simp only [Point.cmp, intCmp]
  split_ifs <;> simp only [Ordering.then] <;> simp <;> omega

/-- C10: `Point`'s comparison is the strict total order given primarily by
`y` and tie-broken by `x`; `partial_cmp` never returns `None`; and it is not
the product partial order: the product-incomparable points `(1,0)` and
`(0,1)` compare as strictly less. -/
theorem point_order_spec :
    (∀ a b : Point Int, Point.partialCmp a b = some (Point.cmp a b))
    ∧ (∀ a b : Point Int, Point.cmp a b = (intCmp a.y b.y).then (intCmp a.x b.x))
    ∧ (∀ a b : Point Int, Point.cmp a b = .eq ↔ a = b)
    ∧ (∀ a b : Point Int, Point.cmp a b = .lt ↔ Point.cmp b a = .gt)
    ∧ (∀ a b c : Point Int,
        Point.cmp a b = .lt → Point.cmp b c = .lt → Point.cmp a c = .lt)
    ∧ (Point.cmp ⟨1, 0⟩ ⟨0, 1⟩ = .lt
        ∧ ¬((1 : Int) ≤ 0 ∧ (0 : Int) ≤ 1)
        ∧ ¬((0 : Int) ≤ 1 ∧ (1 : Int) ≤ 0)) := by
  refine ⟨fun a b => rfl, fun a b => rfl, ?_, ?_, ?_, by decide⟩
  · intro a b
    rw [pointCmp_eq]
    cases a; cases b
    simp only [Point.mk.injEq]
    exact ⟨fun h => ⟨h.2, h.1⟩, fun h => ⟨h.2, h.1⟩⟩
  · intro a b
    rw [pointCmp_lt, pointCmp_gt]
    omega
  · intro a b c hab hbc
    rw [pointCmp_lt] at *
    omega

/-- C10 witness: transitivity applied at concrete points. -/
theorem point_order_spec_witness :
    Point.cmp ⟨0, 0⟩ ⟨0, 1⟩ = .lt :=
  point_order_spec.2.2.2.2.1 ⟨0, 0⟩ ⟨1, 0⟩ ⟨0, 1⟩ (by decide) (by decide)

/-- C5: for each direction family, `neighbours` yields, in the family's
declared enumeration order, exactly the successful results of
`add_signed(d.vector())`; in particular `Point::<u8>::new(255,0)` has
exactly the Cardinal neighbours `(255,1)` (South) then `(254,0)` (West). -/
theorem neighbours_spec :
    (∀ (t : IntTy) (p : Point Int),
      Point.neighbours t p Cardinal.all Cardinal.vector
        = [Cardinal.north, .east, .south, .west].filterMap
            (fun d => p.addSigned t d.vector))
    ∧ (∀ (t : IntTy) (p : Point Int),
      Point.neighbours t p Ordinal.all Ordinal.vector
        = [Ordinal.northEast, .southEast, .southWest, .northWest].filterMap
            (fun d => p.addSigned t d.vector))
    ∧ (∀ (t : IntTy) (p : Point Int),
      Point.neighbours t p Compass.all Compass.vector
        = [Compass.cardinal .north, .ordinal .northEast, .cardinal .east,
           .ordinal .southEast, .cardinal .south, .ordinal .southWest,
           .cardinal .west, .ordinal .northWest].filterMap
            (fun d => p.addSigned t d.vector))
    ∧ (∀ (t : IntTy) (p q : Point Int),
        q ∈ Point.neighbours t p Cardinal.all Cardinal.vector
          ↔ ∃ d ∈ Cardinal.all, p.addSigned t d.vector = some q)
    ∧ Point.neighbours IntTy.u8 ⟨255, 0⟩ Cardinal.all Cardinal.vector
        = [⟨255, 1⟩, ⟨254, 0⟩] := by
  refine ⟨fun t p => rfl, fun t p => rfl, fun t p => rfl, ?_, by decide⟩
  intro t p q
  simp [Point.neighbours, List.mem_filterMap]

/-- C2 counterexample: for `T = u8` and an `Area` whose width 300 is not
representable in `u8`, `contains` panics on the internal `unwrap` (modelled
as `none`) instead of returning `false`, even though the query point
`(-1, 0)` is not convertible into `u8`. -/
theorem area_contains_counterexample :
    Area.contains IntTy.u8 ⟨⟨0, 0⟩, (300, 1)⟩ ⟨-1, 0⟩ = none := by decide

/-- C2 (amended): whenever the area's dimensions and the sums
`position + dimensions` are representable in `T` (its position always is,
being of type `T`), `contains` returns a boolean without panicking: `false`
whenever the query point cannot be converted exactly into `T`, and
otherwise `true` iff `position.x ≤ q.x < position.x + width` and
`position.y ≤ q.y < position.y + height`. -/
theorem area_contains_spec (t : IntTy) (a : Area) (q : Point Int)
    (hpx : t.mem a.position.x) (hpy : t.mem a.position.y)
    (hw : t.mem (a.dimensions.1 : Int)) (hh : t.mem (a.dimensions.2 : Int))
    (hbx : t.mem (a.position.x + (a.dimensions.1 : Int)))
    (hby : t.mem (a.position.y + (a.dimensions.2 : Int))) :
    a.contains t q = some (decide (a.position.x ≤ q.x
      ∧ q.x < a.position.x + (a.dimensions.1 : Int)
      ∧ a.position.y ≤ q.y
      ∧ q.y < a.position.y + (a.dimensions.2 : Int))) := by
  simp only [Area.contains, Point.cast, tryCast, hw, hh, hbx, hby, if_true,
    Option.bind_eq_bind, Option.some_bind, Option.pure_def]
  by_cases hqx : t.mem q.x
  · by_cases hqy : t.mem q.y
    · simp only [hqx, hqy, if_true, Option.some_bind]
      congr 1
      rw [decide_eq_decide]
      constructor
      · rintro ⟨h1, h2, h3, h4⟩
        exact ⟨h1, h3, h2, h4⟩
      · rintro ⟨h1, h2, h3, h4⟩
        exact ⟨h1, h3, h2, h4⟩
    · have hnp : ¬(a.position.x ≤ q.x ∧ q.x < a.position.x + (a.dimensions.1 : Int)
          ∧ a.position.y ≤ q.y ∧ q.y < a.position.y + (a.dimensions.2 : Int)) := by
        simp only [IntTy.mem] at hpy hby hqy
        omega
      simp [hqx, hqy, hnp]
  · have hnp : ¬(a.position.x ≤ q.x ∧ q.x < a.position.x + (a.dimensions.1 : Int)
        ∧ a.position.y ≤ q.y ∧ q.y < a.position.y + (a.dimensions.2 : Int)) := by
      simp only [IntTy.mem] at hpx hbx hqx
      omega
    simp [hqx, hnp]

/-- C2 witness: a representable configuration where the query point is
inside the box. -/
theorem area_contains_spec_witness :
    Area.contains IntTy.u8 ⟨⟨0, 0⟩, (2, 2)⟩ ⟨1, 1⟩ = some true := by
  have h := area_contains_spec IntTy.u8 ⟨⟨0, 0⟩, (2, 2)⟩ ⟨1, 1⟩
    (by decide) (by decide) (by decide) (by decide) (by decide) (by decide)
  simpa using h

theorem Area.pointAt_val (t : IntTy) (a : Area) (i : Nat) (p : Point Int)
    (h : Area.pointAt t a i = some p) :
    p = ⟨a.position.x + ((i % a.dimensions.1 : Nat) : Int),
         a.position.y + ((i / a.dimensions.1 : Nat) : Int)⟩ := by
  unfold Area.pointAt at h
  cases hoff : Point.cast t ⟨((i % a.dimensions.1 : Nat) : Int),
      ((i / a.dimensions.1 : Nat) : Int)⟩ with
  | none => rw [hoff] at h; cases h
  | some off =>
    rw [hoff] at h
    have hoff2 : off = ⟨((i % a.dimensions.1 : Nat) : Int),
        ((i / a.dimensions.1 : Nat) : Int)⟩ := by
      simp only [Point.cast, tryCast, Option.bind_eq_bind] at hoff
      split_ifs at hoff <;> simp_all
    subst hoff2
    simp only [tryCast] at h
    split_ifs at h
    all_goals simp_all

theorem Area.pointAt_inj (t : IntTy) (a : Area) {i j : Nat} {p : Point Int}
    (hi : Area.pointAt t a i = some p) (hj : Area.pointAt t a j = some p) :
    i = j := by
  have h1 := Area.pointAt_val t a i p hi
  have h2 := Area.pointAt_val t a j p hj
  rw [h1] at h2
  simp only [Point.mk.injEq] at h2
  obtain ⟨hx, hy⟩ := h2
  have hmod : i % a.dimensions.1 = j % a.dimensions.1 := by
    exact_mod_cast add_left_cancel hx
  have hdiv : i / a.dimensions.1 = j / a.dimensions.1 := by
    exact_mod_cast add_left_cancel hy
  calc i = a.dimensions.1 * (i / a.dimensions.1) + i % a.dimensions.1 :=
        (Nat.div_add_mod i _).symm
    _ = a.dimensions.1 * (j / a.dimensions.1) + j % a.dimensions.1 := by
        rw [hdiv, hmod]
    _ = j := Nat.div_add_mod j _

theorem AreaIter.step_exhausted (t : IntTy) {it : AreaIter} (b : Bool)
    (h : it.stop ≤ it.index) : it.step t b = some (none, it) := by
  cases b <;> simp [AreaIter.step, AreaIter.next, AreaIter.nextBack, h]

theorem AreaIter.step_front (t : IntTy) {it : AreaIter} {p : Point Int}
    (h : it.index < it.stop) (hp : Area.pointAt t it.area it.index = some p) :
    it.step t true = some (some p, ⟨it.area, it.index + 1, it.stop⟩) := by
  simp [AreaIter.step, AreaIter.next, Nat.not_le.mpr h, hp]

theorem AreaIter.step_back (t : IntTy) {it : AreaIter} {p : Point Int}
    (h : it.index < it.stop)
    (hp : Area.pointAt t it.area (it.stop - 1) = some p) :
    it.step t false = some (some p, ⟨it.area, it.index, it.stop - 1⟩) := by
  simp [AreaIter.step, AreaIter.nextBack, Nat.not_le.mpr h, hp]

theorem AreaIter.run_perm (t : IntTy) :
    ∀ (bs : List Bool) (it : AreaIter), it.index ≤ it.stop →
      (∀ i, it.index ≤ i → i < it.stop → (Area.pointAt t it.area i).isSome) →
      ∃ ps it2, it.run t bs = some (ps, it2)
        ∧ it2.area = it.area ∧ it.index ≤ it2.index ∧ it2.index ≤ it2.stop
        ∧ it2.stop ≤ it.stop
        ∧ (ps ++ AreaIter.remaining t it2).Perm (AreaIter.remaining t it) := by
  intro bs
  induction bs with
  | nil =>
    intro it h _
    exact ⟨[], it, rfl, rfl, le_refl _, h, le_refl _, by simp⟩
  | cons b bs ih =>
    intro it h hrep
    by_cases hex : it.stop ≤ it.index
    · obtain ⟨ps, it2, hrun, harea, h1, h2, h3, hperm⟩ := ih it h hrep
      refine ⟨ps, it2, ?_, harea, h1, h2, h3, hperm⟩
      simp only [AreaIter.run, Option.bind_eq_bind, AreaIter.step_exhausted t b hex, Option.some_bind,
        hrun, Option.toList_none, List.nil_append, Option.pure_def]
    · push_neg at hex
      cases b
      · obtain ⟨p, hp⟩ := Option.isSome_iff_exists.mp
          (hrep (it.stop - 1) (by omega) (by omega))
        have hrep2 : ∀ i, it.index ≤ i → i < it.stop - 1 →
            (Area.pointAt t it.area i).isSome :=
          fun i hi1 hi2 => hrep i hi1 (by omega)
        obtain ⟨ps, it2, hrun, harea, h1, h2, h3, hperm⟩ :=
          ih ⟨it.area, it.index, it.stop - 1⟩
            (show it.index ≤ it.stop - 1 from by omega) hrep2
        have hrem : AreaIter.remaining t it
            = AreaIter.remaining t ⟨it.area, it.index, it.stop - 1⟩ ++ [p] := by
          simp only [AreaIter.remaining]
          rw [show it.stop - it.index = (it.stop - 1 - it.index) + 1 from by omega,
            List.range'_concat,
            show it.index + 1 * (it.stop - 1 - it.index) = it.stop - 1 from by
              omega,
            List.filterMap_append]
          simp only [List.filterMap_cons, hp, List.filterMap_nil]
        refine ⟨p :: ps, it2, ?_, harea, h1, h2,
          le_trans h3 (Nat.sub_le _ _), ?_⟩
        · simp only [AreaIter.run, Option.bind_eq_bind, AreaIter.step_back t hex hp, Option.some_bind,
            hrun, Option.toList_some, List.singleton_append, Option.pure_def]
        · rw [hrem]
          exact (List.Perm.cons p hperm).trans
            (List.perm_append_singleton p _).symm
      · obtain ⟨p, hp⟩ := Option.isSome_iff_exists.mp
          (hrep it.index (le_refl _) hex)
        have hrep2 : ∀ i, it.index + 1 ≤ i → i < it.stop →
            (Area.pointAt t it.area i).isSome :=
          fun i hi1 hi2 => hrep i (by omega) hi2
        obtain ⟨ps, it2, hrun, harea, h1, h2, h3, hperm⟩ :=
          ih ⟨it.area, it.index + 1, it.stop⟩
            (show it.index + 1 ≤ it.stop from by omega) hrep2
        have hrem : AreaIter.remaining t it
            = p :: AreaIter.remaining t ⟨it.area, it.index + 1, it.stop⟩ := by
          simp only [AreaIter.remaining]
          rw [show it.stop - it.index = (it.stop - (it.index + 1)) + 1 from by
              omega,
            List.range'_succ]
          simp only [List.filterMap_cons, hp]
        refine ⟨p :: ps, it2, ?_, harea,
          le_trans (Nat.le_succ _) h1, h2, h3, ?_⟩
        · simp only [AreaIter.run, Option.bind_eq_bind, AreaIter.step_front t hex hp, Option.some_bind,
            hrun, Option.toList_some, List.singleton_append, Option.pure_def]
        · rw [hrem]
          exact List.Perm.cons p hperm

theorem AreaIter.run_forward (t : IntTy) :
    ∀ (k : Nat) (it : AreaIter), it.index ≤ it.stop →
      (∀ i, it.index ≤ i → i < it.stop → (Area.pointAt t it.area i).isSome) →
      ∃ it2, it.run t (List.replicate k true)
        = some ((List.range' it.index (min k (it.stop - it.index))).filterMap
            (Area.pointAt t it.area), it2) := by
  intro k
  induction k with
  | zero =>
    intro it h _
    exact ⟨it, by simp [AreaIter.run]⟩
  | succ k ih =>
    intro it h hrep
    by_cases hex : it.stop ≤ it.index
    · obtain ⟨it2, hrun⟩ := ih it h hrep
      refine ⟨it2, ?_⟩
      rw [List.replicate_succ]
      simp only [AreaIter.run, Option.bind_eq_bind, AreaIter.step_exhausted t true hex,
        Option.some_bind, hrun, Option.toList_none, List.nil_append,
        Option.pure_def]
      rw [show it.stop - it.index = 0 from by omega]
      simp
    · push_neg at hex
      obtain ⟨p, hp⟩ := Option.isSome_iff_exists.mp
        (hrep it.index (le_refl _) hex)
      have hrep2 : ∀ i, it.index + 1 ≤ i → i < it.stop →
          (Area.pointAt t it.area i).isSome :=
        fun i hi1 hi2 => hrep i (by omega) hi2
      obtain ⟨it2, hrun⟩ := ih ⟨it.area, it.index + 1, it.stop⟩
        (show it.index + 1 ≤ it.stop from by omega) hrep2
      refine ⟨it2, ?_⟩
      rw [List.replicate_succ]
      simp only [AreaIter.run, Option.bind_eq_bind, AreaIter.step_front t hex hp, Option.some_bind,
        hrun, Option.toList_some, List.singleton_append, Option.pure_def]
      rw [show min (k + 1) (it.stop - it.index)
            = min k (it.stop - (it.index + 1)) + 1 from by omega,
        List.range'_succ]
      simp only [List.filterMap_cons, hp]

theorem AreaIter.run_backward (t : IntTy) :
    ∀ (k : Nat) (it : AreaIter), it.index ≤ it.stop →
      (∀ i, it.index ≤ i → i < it.stop → (Area.pointAt t it.area i).isSome) →
      ∃ it2, it.run t (List.replicate k false)
        = some (((List.range' (it.stop - min k (it.stop - it.index))
            (min k (it.stop - it.index))).filterMap
              (Area.pointAt t it.area)).reverse, it2) := by
  intro k
  induction k with
  | zero =>
    intro it h _
    exact ⟨it, by simp [AreaIter.run]⟩
  | succ k ih =>
    intro it h hrep
    by_cases hex : it.stop ≤ it.index
    · obtain ⟨it2, hrun⟩ := ih it h hrep
      refine ⟨it2, ?_⟩
      rw [List.replicate_succ]
      simp only [AreaIter.run, Option.bind_eq_bind, AreaIter.step_exhausted t false hex,
        Option.some_bind, hrun, Option.toList_none, List.nil_append,
        Option.pure_def]
      rw [show it.stop - it.index = 0 from by omega]
      simp
    · push_neg at hex
      obtain ⟨p, hp⟩ := Option.isSome_iff_exists.mp
        (hrep (it.stop - 1) (by omega) (by omega))
      have hrep2 : ∀ i, it.index ≤ i → i < it.stop - 1 →
          (Area.pointAt t it.area i).isSome :=
        fun i hi1 hi2 => hrep i hi1 (by omega)
      obtain ⟨it2, hrun⟩ := ih ⟨it.area, it.index, it.stop - 1⟩
        (show it.index ≤ it.stop - 1 from by omega) hrep2
      refine ⟨it2, ?_⟩
      rw [List.replicate_succ]
      simp only [AreaIter.run, Option.bind_eq_bind, AreaIter.step_back t hex hp, Option.some_bind,
        hrun, Option.toList_some, List.singleton_append, Option.pure_def]
      rw [show min (k + 1) (it.stop - it.index)
            = min k (it.stop - 1 - it.index) + 1 from by omega,
        List.range'_concat, List.filterMap_append, List.reverse_append,
        show it.stop - (min k (it.stop - 1 - it.index) + 1)
            + 1 * min k (it.stop - 1 - it.index) = it.stop - 1 from by omega,
        show it.stop - (min k (it.stop - 1 - it.index) + 1)
            = it.stop - 1 - min k (it.stop - 1 - it.index) from by omega]
      simp only [List.filterMap_cons, hp, List.filterMap_nil,
        List.reverse_cons, List.reverse_nil, List.nil_append,
        List.singleton_append]

theorem length_filterMap_all {α β : Type} (f : α → Option β) :
    ∀ l : List α, (∀ a ∈ l, (f a).isSome) →
      (l.filterMap f).length = l.length := by
  intro l
  induction l with
  | nil => intro _; rfl
  | cons a l ih =>
    intro h
    obtain ⟨b, hb⟩ := Option.isSome_iff_exists.mp (h a (by simp))
    simp only [List.filterMap_cons, hb, List.length_cons]
    rw [ih (fun x hx => h x (by simp [hx]))]

theorem Area.points_nodup (t : IntTy) (a : Area) : (Area.points t a).Nodup := by
  unfold Area.points
  apply List.Nodup.filterMap ?_ (List.nodup_range _)
  intro i j p hi hj
  exact Area.pointAt_inj t a (Option.mem_def.mp hi) (Option.mem_def.mp hj)

set_option maxRecDepth 20000 in
/-- C4 counterexample: for `T = u8` and dimensions `(300, 1)`, forward
iteration panics (`none`) on the `offset.cast::<T>().unwrap()` at linear
index 256 instead of yielding `300` points — refuting the claim for every
`Area`. -/
theorem area_iter_counterexample :
    AreaIter.run IntTy.u8 (Area.iter ⟨⟨0, 0⟩, (300, 1)⟩)
      (List.replicate (Area.surfaceArea ⟨⟨0, 0⟩, (300, 1)⟩) true) = none := by
  decide

/-- C4 (amended): for every `Area` all of whose cells are representable in
`T` (offset and `position + offset` within `T`'s range — the condition the
iterator's `cast::<T>().unwrap()` and `T` additions impose), forward
iteration yields exactly the `w*h` pairwise-distinct points of the
row-major list starting at `position` without panicking; reverse iteration
yields exactly the reversed list; and any interleaving of front and back
steps runs without panic and, once the cursor is exhausted, has yielded
each of the `w*h` points exactly once; for dimensions `(2,3)` at the origin
the forward order is `(0,0),(1,0),(0,1),(1,1),(0,2),(1,2)`. -/
theorem area_iter_spec (t : IntTy) (a : Area)
    (hrep : ∀ i, i < a.surfaceArea → (Area.pointAt t a i).isSome) :
    (∃ it2, AreaIter.run t a.iter (List.replicate a.surfaceArea true)
        = some (Area.points t a, it2))
    ∧ (∃ it2, AreaIter.run t a.iter (List.replicate a.surfaceArea false)
        = some ((Area.points t a).reverse, it2))
    ∧ (Area.points t a).length = a.dimensions.1 * a.dimensions.2
    ∧ (Area.points t a).Nodup
    ∧ (∀ steps : List Bool, ∃ ps it2,
        AreaIter.run t a.iter steps = some (ps, it2)
        ∧ (it2.stop ≤ it2.index → ps.Perm (Area.points t a)))
    ∧ Area.points IntTy.u8 ⟨⟨0, 0⟩, (2, 3)⟩
        = [⟨0, 0⟩, ⟨1, 0⟩, ⟨0, 1⟩, ⟨1, 1⟩, ⟨0, 2⟩, ⟨1, 2⟩] := by
  refine ⟨?_, ?_, ?_, Area.points_nodup t a, ?_, by decide⟩
  · obtain ⟨it2, hrun⟩ := AreaIter.run_forward t a.surfaceArea a.iter
      (Nat.zero_le _) (fun i _ hi => hrep i hi)
    refine ⟨it2, ?_⟩
    rw [hrun]
    simp only [Area.iter]
    rw [Nat.sub_zero, Nat.min_self, ← List.range_eq_range']
    rfl
  · obtain ⟨it2, hrun⟩ := AreaIter.run_backward t a.surfaceArea a.iter
      (Nat.zero_le _) (fun i _ hi => hrep i hi)
    refine ⟨it2, ?_⟩
    rw [hrun]
    simp only [Area.iter]
    rw [Nat.sub_zero, Nat.min_self, Nat.sub_self, ← List.range_eq_range']
    rfl
  · have h := length_filterMap_all (Area.pointAt t a) (List.range a.surfaceArea)
      (fun i hi => hrep i (List.mem_range.mp hi))
    unfold Area.points
    rw [h, List.length_range]
    rfl
  · intro steps
    obtain ⟨ps, it2, hrun, harea, h1, h2, h3, hperm⟩ :=
      AreaIter.run_perm t steps a.iter (Nat.zero_le _) (fun i _ hi => hrep i hi)
    refine ⟨ps, it2, hrun, fun hs => ?_⟩
    have hrem2 : AreaIter.remaining t it2 = [] := by
      unfold AreaIter.remaining
      rw [Nat.sub_eq_zero_of_le hs]
      simp
    have hrem0 : AreaIter.remaining t a.iter = Area.points t a := by
      simp [AreaIter.remaining, Area.iter, Area.points, List.range_eq_range']
    rw [hrem2, List.append_nil, hrem0] at hperm
    exact hperm

/-- C4 witness: the 2×3 area over `u8` is fully representable, so the
length conjunct applies. -/
theorem area_iter_spec_witness :
    (Area.points IntTy.u8 ⟨⟨0, 0⟩, (2, 3)⟩).length = 2 * 3 :=
  (area_iter_spec IntTy.u8 ⟨⟨0, 0⟩, (2, 3)⟩ (by decide)).2.2.1

theorem foldl_min_le_init : ∀ (l : List Int) (a : Int), l.foldl min a ≤ a := by
  intro l
  induction l with
  | nil => intro a; exact le_refl a
  | cons x xs ih => intro a; exact le_trans (ih (min a x)) (min_le_left a x)

theorem foldl_min_le_mem :
    ∀ (l : List Int) (a b : Int), b ∈ l → l.foldl min a ≤ b := by
  intro l
  induction l with
  | nil => intro a b hb; cases hb
  | cons x xs ih =>
    intro a b hb
    rcases List.mem_cons.mp hb with rfl | hb
    · exact le_trans (foldl_min_le_init xs (min a b)) (min_le_right a b)
    · exact ih (min a x) b hb

theorem foldl_min_mem :
    ∀ (l : List Int) (a : Int), l.foldl min a = a ∨ l.foldl min a ∈ l := by
  intro l
  induction l with
  | nil => intro a; left; rfl
  | cons x xs ih =>
    intro a
    rcases ih (min a x) with h | h
    · rcases le_total a x with hax | hxa
      · left; rw [List.foldl_cons, h, min_eq_left hax]
      · right
        rw [List.foldl_cons, h, min_eq_right hxa]
        exact List.mem_cons_self x xs
    · right; exact List.mem_cons_of_mem x h

theorem foldl_max_ge_init : ∀ (l : List Int) (a : Int), a ≤ l.foldl max a := by
  intro l
  induction l with
  | nil => intro a; exact le_refl a
  | cons x xs ih => intro a; exact le_trans (le_max_left a x) (ih (max a x))

theorem foldl_max_ge_mem :
    ∀ (l : List Int) (a b : Int), b ∈ l → b ≤ l.foldl max a := by
  intro l
  induction l with
  | nil => intro a b hb; cases hb
  | cons x xs ih =>
    intro a b hb
    rcases List.mem_cons.mp hb with rfl | hb
    · exact le_trans (le_max_right a b) (foldl_max_ge_init xs (max a b))
    · exact ih (max a x) b hb

theorem foldBounds_some :
    ∀ (rest : List (Point Int)) (lo hi : Point Int),
      rest.foldl boundsStep (some (lo, hi)) =
        some (⟨rest.foldl (fun m q => min m q.x) lo.x,
               rest.foldl (fun m q => min m q.y) lo.y⟩,
              ⟨rest.foldl (fun m q => max m q.x) hi.x,
               rest.foldl (fun m q => max m q.y) hi.y⟩) := by
  intro rest
  induction rest with
  | nil => intro lo hi; rfl
  | cons p rest ih =>
    intro lo hi
    simp only [List.foldl_cons, boundsStep]
    exact ih ⟨min lo.x p.x, min lo.y p.y⟩ ⟨max hi.x p.x, max hi.y p.y⟩

/-- C8 counterexample: for `T = i8` the points `(-100,0)` and `(100,0)`
have spread `100 - (-100) = 200`, which overflows the `T` subtraction
`bottom_right - top_left` (in release it wraps negative and the
`cast::<usize>().unwrap()` fails), so `bounding_area` panics (`none`)
instead of returning a rectangle. -/
theorem bounding_area_counterexample :
    Area.boundingArea IntTy.i8 [⟨-100, 0⟩, ⟨100, 0⟩] = none := by decide

/-- C8 (amended): whenever the per-axis spreads `max - min` are
representable in `T` (the condition the `T` subtraction and `usize` cast
impose — in particular always when the points fit in a type whose range
covers their spread), `bounding_area` returns exactly the rectangle at the
componentwise minimum with dimensions `max - min + 1` per axis; every input
point lies in the half-open box of the result; the spec's example yields
position `(2,1)` with dimensions `(2,4)`; empty input yields the
zero-dimension area at the origin without touching `T` arithmetic. -/
theorem bounding_area_spec (t : IntTy) (ps : List (Point Int))
    (hsx : ps ≠ [] → t.mem (spreadX ps))
    (hsy : ps ≠ [] → t.mem (spreadY ps)) :
    (Area.boundingArea t ps = some (boundingSpec ps))
    ∧ (∀ (qs : List (Point Int)) (q : Point Int), q ∈ qs →
        (boundingSpec qs).position.x ≤ q.x
        ∧ q.x < (boundingSpec qs).position.x + ((boundingSpec qs).dimensions.1 : Int)
        ∧ (boundingSpec qs).position.y ≤ q.y
        ∧ q.y < (boundingSpec qs).position.y + ((boundingSpec qs).dimensions.2 : Int))
    ∧ (∀ (p : Point Int) (rest : List (Point Int)),
        (boundingSpec (p :: rest)).position.x ∈ (p :: rest).map Point.x
        ∧ (boundingSpec (p :: rest)).position.y ∈ (p :: rest).map Point.y)
    ∧ Area.boundingArea IntTy.u8 [⟨2, 2⟩, ⟨3, 1⟩, ⟨3, 4⟩, ⟨2, 1⟩]
        = some ⟨⟨2, 1⟩, (2, 4)⟩
    ∧ Area.boundingArea t [] = some ⟨⟨0, 0⟩, (0, 0)⟩ := by
  refine ⟨?_, ?_, ?_, by decide, rfl⟩
  · cases ps with
    | nil => rfl
    | cons p rest =>
      have hx' := hsx (by simp)
      have hy' := hsy (by simp)
      simp only [spreadX] at hx'
      simp only [spreadY] at hy'
      have hminx : rest.foldl (fun m q => min m q.x) p.x ≤ p.x := by
        rw [← List.foldl_map]
        exact foldl_min_le_init _ _
      have hmaxx : p.x ≤ rest.foldl (fun m q => max m q.x) p.x := by
        rw [← List.foldl_map]
        exact foldl_max_ge_init _ _
      have hminy : rest.foldl (fun m q => min m q.y) p.y ≤ p.y := by
        rw [← List.foldl_map]
        exact foldl_min_le_init _ _
      have hmaxy : p.y ≤ rest.foldl (fun m q => max m q.y) p.y := by
        rw [← List.foldl_map]
        exact foldl_max_ge_init _ _
      unfold Area.boundingArea foldBounds
      rw [List.foldl_cons, show boundsStep none p = some (p, p) from rfl,
        foldBounds_some]
      simp only [tryCast, hx', hy', if_true]
      simp only [boundingSpec, Point.castNat]
      rw [if_pos ⟨by omega, by omega⟩]
  · intro qs q hq
    cases qs with
    | nil => cases hq
    | cons p rest =>
      have hmin_le_x : rest.foldl (fun m q => min m q.x) p.x ≤ q.x := by
        rw [← List.foldl_map]
        rcases List.mem_cons.mp hq with rfl | hqr
        · exact foldl_min_le_init _ _
        · exact foldl_min_le_mem _ _ _ (List.mem_map_of_mem Point.x hqr)
      have hmax_ge_x : q.x ≤ rest.foldl (fun m q => max m q.x) p.x := by
        rw [← List.foldl_map]
        rcases List.mem_cons.mp hq with rfl | hqr
        · exact foldl_max_ge_init _ _
        · exact foldl_max_ge_mem _ _ _ (List.mem_map_of_mem Point.x hqr)
      have hmin_le_y : rest.foldl (fun m q => min m q.y) p.y ≤ q.y := by
        rw [← List.foldl_map]
        rcases List.mem_cons.mp hq with rfl | hqr
        · exact foldl_min_le_init _ _
        · exact foldl_min_le_mem _ _ _ (List.mem_map_of_mem Point.y hqr)
      have hmax_ge_y : q.y ≤ rest.foldl (fun m q => max m q.y) p.y := by
        rw [← List.foldl_map]
        rcases List.mem_cons.mp hq with rfl | hqr
        · exact foldl_max_ge_init _ _
        · exact foldl_max_ge_mem _ _ _ (List.mem_map_of_mem Point.y hqr)
      simp only [boundingSpec]
      refine ⟨hmin_le_x, ?_, hmin_le_y, ?_⟩
      · push_cast
        rw [Int.toNat_of_nonneg (by omega)]
        omega
      · push_cast
        rw [Int.toNat_of_nonneg (by omega)]
        omega
  · intro p rest
    constructor
    · simp only [boundingSpec, List.map_cons]
      rw [← List.foldl_map]
      rcases foldl_min_mem (rest.map Point.x) p.x with h | h
      · rw [h]; exact List.mem_cons_self _ _
      · exact List.mem_cons_of_mem _ h
    · simp only [boundingSpec, List.map_cons]
      rw [← List.foldl_map]
      rcases foldl_min_mem (rest.map Point.y) p.y with h | h
      · rw [h]; exact List.mem_cons_self _ _
      · exact List.mem_cons_of_mem _ h

/-- C8 witness: the spec's example over `u8`, whose spreads `1` and `3`
are representable. -/
theorem bounding_area_spec_witness :
    Area.boundingArea IntTy.u8 [⟨2, 2⟩, ⟨3, 1⟩, ⟨3, 4⟩, ⟨2, 1⟩]
      = some (boundingSpec [⟨2, 2⟩, ⟨3, 1⟩, ⟨3, 4⟩, ⟨2, 1⟩]) :=
  (bounding_area_spec IntTy.u8 [⟨2, 2⟩, ⟨3, 1⟩, ⟨3, 4⟩, ⟨2, 1⟩]
    (fun _ => by decide) (fun _ => by decide)).1

theorem Matrix.rows_def {α : Type} (m : Matrix α) :
    m.rows = m.data.length / m.columns := by
  unfold Matrix.rows
  cases h : m.columns
  · simp
  · rfl

theorem collectRows_ok_of_uniform {α : Type} :
    ∀ (rows : List (List α)) (n : Nat), (∀ r ∈ rows, r.length = n) →
      collectRows (some n) rows = .ok (rows.flatten, some n) := by
  intro rows
  induction rows with
  | nil => intro n _; rfl
  | cons r rest ih =>
    intro n h
    have hr : r.length = n := h r (by simp)
    have hrest : ∀ q ∈ rest, q.length = n := fun q hq => h q (by simp [hq])
    simp only [collectRows, hr, if_true, ih n hrest, List.flatten_cons]

theorem collectRows_error_of_mismatch {α : Type} :
    ∀ (rows : List (List α)) (n : Nat), (∃ r ∈ rows, r.length ≠ n) →
      collectRows (some n) rows = .error .mk := by
  intro rows
  induction rows with
  | nil => rintro n ⟨r, hr, _⟩; cases hr
  | cons r rest ih =>
    rintro n ⟨q, hq, hne⟩
    by_cases hr : r.length = n
    · have hqrest : q ∈ rest := by
        rcases List.mem_cons.mp hq with h | h
        · exact absurd (h ▸ hr) hne
        · exact h
      simp only [collectRows, hr, if_true, ih n ⟨q, hqrest, hne⟩]
    · simp only [collectRows, hr, if_false]

theorem collectRows_ok_shape {α : Type} :
    ∀ (rows : List (List α)) (n : Nat) (d : List α) (c : Option Nat),
      collectRows (some n) rows = .ok (d, c) →
      c = some n ∧ d = rows.flatten ∧ (∀ r ∈ rows, r.length = n) := by
  intro rows
  induction rows with
  | nil =>
    intro n d c h
    simp only [collectRows, Except.ok.injEq, Prod.mk.injEq] at h
    exact ⟨h.2.symm, h.1.symm, by simp⟩
  | cons r rest ih =>
    intro n d c h
    simp only [collectRows] at h
    by_cases hr : r.length = n
    · rw [if_pos hr] at h
      cases hrec : collectRows (some n) rest with
      | ok dc =>
        rw [hrec] at h
        obtain ⟨hc, hd, hall⟩ := ih n dc.1 dc.2 (by rw [hrec])
        simp only [Except.ok.injEq, Prod.mk.injEq] at h
        refine ⟨h.2 ▸ hc, ?_, ?_⟩
        · rw [← h.1, hd, List.flatten_cons]
        · intro q hq
          rcases List.mem_cons.mp hq with hq | hq
          · exact hq ▸ hr
          · exact hall q hq
      | error e => rw [hrec] at h; cases h
    · rw [if_neg hr] at h; cases h

/-- The construction invariant: the data length is `rows * columns`, and
the column count is zero exactly when the matrix is empty. -/
theorem Matrix.builtFromRows_invariant {α : Type} {m : Matrix α}
    (h : m.builtFromRows) :
    m.data.length = m.rows * m.columns ∧ (m.columns = 0 ↔ m.data.length = 0) := by
  obtain ⟨rows, hok⟩ := h
  unfold Matrix.tryFromIter at hok
  cases rows with
  | nil =>
    simp only [collectRows, Except.ok.injEq] at hok
    rw [← hok]
    simp [Matrix.rows]
  | cons r rest =>
    simp only [collectRows] at hok
    cases hrec : collectRows (some r.length) rest with
    | ok dc =>
      rw [hrec] at hok
      obtain ⟨hc, hd, hall⟩ := collectRows_ok_shape rest r.length dc.1 dc.2 (by rw [hrec])
      simp only [Except.ok.injEq] at hok
      have hlen : dc.1.length = rest.length * r.length := by
        rw [hd, List.length_flatten]
        have : rest.map List.length = rest.map (fun _ => r.length) := by
          apply List.map_congr_left
          intro q hq
          exact hall q hq
        rw [this]
        simp [List.map_const', Nat.mul_comm]
      rw [← hok]
      simp only [Matrix.rows, hc]
      cases hr : r.length with
      | zero =>
        constructor
        · simp [Option.getD, hr ▸ hlen, hr]
        · simp [Option.getD, hr ▸ hlen, hr]
      | succ k =>
        have hdlen : (r ++ dc.1).length = (rest.length + 1) * (k + 1) := by
          simp [List.length_append, hlen, hr]
          ring
        constructor
        · simp only [Option.getD, hdlen]
          rw [Nat.mul_div_cancel _ (by omega)]
        · simp [Option.getD, hdlen]
    | error e => rw [hrec] at hok; cases hok

/-- C1: the code contradicts its own row-major layout. The read operator
accesses linear index `y*columns + x`, but the write (mutable) operator
accesses `x*columns + y`: writing `99` through the mutable index at
`Point{x:0,y:1}` of the matrix `[[10,20],[30,40]]` overwrites linear index
`1` (element `(1,0)`), and the subsequent read of `Point{x:0,y:1}` returns
the untouched `30`, not `99`. -/
theorem matrix_index_mut_bug :
    (∀ (m : Matrix Nat) (p : Point Nat),
      m.index p = m.data[p.y * m.columns + p.x]?)
    ∧ (Matrix.indexMutWrite (⟨[10, 20, 30, 40], 2⟩ : Matrix Nat) ⟨0, 1⟩ 99
        = some ⟨[10, 99, 30, 40], 2⟩)
    ∧ ((Matrix.indexMutWrite (⟨[10, 20, 30, 40], 2⟩ : Matrix Nat) ⟨0, 1⟩ 99).bind
        (fun m2 => m2.index ⟨0, 1⟩) = some 30)
    ∧ some (30 : Nat) ≠ some 99 := by
  refine ⟨fun m p => rfl, by decide, by decide, by decide⟩

/-- C3 counterexample: on the 2×2 matrix `[[1,2],[3,4]]` the out-of-bounds
point `(2,0)` (`x ≥ cols`) does not panic: the read index computes linear
index `0*2+2 = 2 < 4` and returns element `3`. -/
theorem matrix_index_out_of_bounds_no_panic :
    ¬(2 < (⟨[1, 2, 3, 4], 2⟩ : Matrix Nat).cols)
    ∧ Matrix.index (⟨[1, 2, 3, 4], 2⟩ : Matrix Nat) ⟨2, 0⟩ = some 3 := by
  constructor
  · decide
  · rfl

/-- C3 (amended): for every constructed matrix, `get` returns `Some` iff
`x < cols ∧ y < rows`; direct indexing panics precisely when the linear
index `y*columns + x` reaches the data length — in particular whenever
`y ≥ rows` — but an out-of-bounds `x` whose linear index stays below the
data length yields a misplaced element without panicking. -/
theorem matrix_get_index_spec {α : Type} (m : Matrix α) (p : Point Nat)
    (h : m.builtFromRows) :
    ((m.get p).isSome ↔ (p.x < m.cols ∧ p.y < m.rows))
    ∧ (m.index p = none ↔ m.data.length ≤ p.y * m.columns + p.x)
    ∧ (m.rows ≤ p.y → m.index p = none) := by
  obtain ⟨hlen, hzero⟩ := Matrix.builtFromRows_invariant h
  refine ⟨?_, ?_, ?_⟩
  · unfold Matrix.get
    split_ifs with hb
    · refine iff_of_true ?_ hb
      rw [Option.isSome_iff_ne_none, ne_eq, Matrix.index, List.getElem?_eq_none_iff]
      push_neg
      have hc : p.x < m.columns := hb.1
      have hy : p.y + 1 ≤ m.rows := hb.2
      calc p.y * m.columns + p.x < (p.y + 1) * m.columns := by
            rw [Nat.add_mul, Nat.one_mul]; omega
        _ ≤ m.rows * m.columns := Nat.mul_le_mul_right _ hy
        _ = m.data.length := hlen.symm
    · simp [hb]
  · simp [Matrix.index, List.getElem?_eq_none_iff]
  · intro hy
    simp only [Matrix.index, List.getElem?_eq_none_iff, hlen]
    calc m.rows * m.columns ≤ p.y * m.columns := Nat.mul_le_mul_right _ hy
      _ ≤ p.y * m.columns + p.x := Nat.le_add_right _ _

/-- C3 witness: `get` succeeds on an in-bounds point of a constructed
matrix. -/
theorem matrix_get_index_spec_witness :
    ((⟨[1, 2, 3, 4], 2⟩ : Matrix Nat).get ⟨1, 1⟩).isSome :=
  (matrix_get_index_spec (⟨[1, 2, 3, 4], 2⟩ : Matrix Nat) ⟨1, 1⟩
    ⟨[[1, 2], [3, 4]], rfl⟩).1.mpr (by decide)

/-- C6: the first row's length fixes the column count; when every row has
that length, construction succeeds with the rows concatenated in row-major
order; when some row differs, construction fails with `VariableRows` and no
matrix is produced; e.g. rows `[[1,2],[3]]` fail. -/
theorem matrix_try_from_iter_spec {α : Type} (rows : List (List α)) :
    ((∀ r ∈ rows, r.length = firstRowLength rows) →
      Matrix.tryFromIter rows = .ok ⟨rows.flatten, firstRowLength rows⟩)
    ∧ ((∃ r ∈ rows, r.length ≠ firstRowLength rows) →
      Matrix.tryFromIter rows = .error .mk)
    ∧ Matrix.tryFromIter (α := Nat) [[1, 2], [3]] = .error .mk := by
  refine ⟨?_, ?_, rfl⟩
  · intro hall
    cases rows with
    | nil => rfl
    | cons r rest =>
      have hfirst : firstRowLength (r :: rest) = r.length := rfl
      rw [hfirst] at hall ⊢
      have hrest : ∀ q ∈ rest, q.length = r.length := fun q hq => hall q (by simp [hq])
      unfold Matrix.tryFromIter
      simp only [collectRows, collectRows_ok_of_uniform rest r.length hrest,
        List.flatten_cons, Option.getD]
  · rintro ⟨q, hq, hne⟩
    cases rows with
    | nil => cases hq
    | cons r rest =>
      have hfirst : firstRowLength (r :: rest) = r.length := rfl
      rw [hfirst] at hne
      have hqrest : q ∈ rest := by
        rcases List.mem_cons.mp hq with h | h
        · exact absurd (congrArg List.length h) hne
        · exact h
      unfold Matrix.tryFromIter
      simp only [collectRows,
        collectRows_error_of_mismatch rest r.length ⟨q, hqrest, hne⟩]

/-- C6 witness: uniform rows construct the concatenated matrix. -/
theorem matrix_try_from_iter_spec_witness :
    Matrix.tryFromIter [[1, 2], [3, 4]] = .ok (⟨[1, 2, 3, 4], 2⟩ : Matrix Nat) :=
  (matrix_try_from_iter_spec [[1, 2], [3, 4]]).1 (by decide)

theorem stepBy_length {α : Type} (c : Nat) (hc : 0 < c) :
    ∀ (r : Nat) (l : List α), l.length ≤ r * c → r * c < l.length + c →
      (stepBy c l).length = r := by
  intro r
  induction r with
  | zero =>
    intro l h1 h2
    have hl : l = [] := List.eq_nil_of_length_eq_zero (by omega)
    subst hl
    simp [stepBy]
  | succ r ih =>
    intro l h1 h2
    rw [Nat.succ_mul] at h1 h2
    cases l with
    | nil =>
      exfalso
      simp only [List.length_nil] at h1 h2
      omega
    | cons a rest =>
      simp only [stepBy, List.length_cons]
      rw [ih (rest.drop (c - 1))
        (by simp only [List.length_drop, List.length_cons] at *; omega)
        (by simp only [List.length_drop, List.length_cons] at *; omega)]

theorem stepBy_getElem? {α : Type} (c : Nat) (hc : 0 < c) :
    ∀ (r : Nat) (l : List α), l.length ≤ r * c → r * c < l.length + c →
      ∀ i, (stepBy c l)[i]? = l[i * c]? := by
  intro r
  induction r with
  | zero =>
    intro l h1 h2 i
    have hl : l = [] := List.eq_nil_of_length_eq_zero (by omega)
    subst hl
    simp [stepBy]
  | succ r ih =>
    intro l h1 h2 i
    rw [Nat.succ_mul] at h1 h2
    cases l with
    | nil =>
      exfalso
      simp only [List.length_nil] at h1 h2
      omega
    | cons a rest =>
      cases i with
      | zero => simp [stepBy]
      | succ i =>
        simp only [stepBy, List.getElem?_cons_succ]
        have hstep : rest.drop (c - 1) = (a :: rest).drop c := by
          cases c with
          | zero => omega
          | succ c0 => simp [List.drop_succ_cons]
        rw [ih (rest.drop (c - 1))
          (by simp only [List.length_drop, List.length_cons] at *; omega)
          (by simp only [List.length_drop, List.length_cons] at *; omega) i,
          hstep, List.getElem?_drop]
        congr 1
        rw [Nat.succ_mul]
        omega

theorem flatten_getElem?_uniform {α : Type} (R : Nat) :
    ∀ (L : List (List α)), (∀ l ∈ L, l.length = R) →
      ∀ q s, s < R →
        L.flatten[q * R + s]? = (L[q]?.bind (fun l => l[s]?)) := by
  intro L
  induction L with
  | nil => intro _ q s _; simp
  | cons l L ih =>
    intro hL q s hs
    have hl : l.length = R := hL l (by simp)
    cases q with
    | zero =>
      simp only [Nat.zero_mul, Nat.zero_add, List.flatten_cons]
      rw [List.getElem?_append, if_pos (by omega)]
      simp
    | succ q =>
      have hge : l.length ≤ (q + 1) * R + s := by
        rw [hl, Nat.succ_mul]
        omega
      rw [List.flatten_cons, List.getElem?_append_right hge,
        show (q + 1) * R + s - l.length = q * R + s from by
          rw [hl, Nat.succ_mul]; omega,
        ih (fun x hx => hL x (by simp [hx])) q s hs,
        List.getElem?_cons_succ]

/-- Core characterization of `transpose` on a well-formed matrix: the new
column count is the old row count, the new data has length
`columns * rows`, and the element at linear index `n` is the old element at
`(n % rows) * columns + n / rows`. -/
theorem Matrix.transpose_core {α : Type} (m : Matrix α)
    (hlen : m.data.length = m.rows * m.columns)
    (hzero : m.columns = 0 ↔ m.data.length = 0) :
    m.transpose.columns = m.rows
    ∧ m.transpose.data.length = m.columns * m.rows
    ∧ (∀ n, n < m.columns * m.rows →
        m.transpose.data[n]? = m.data[(n % m.rows) * m.columns + n / m.rows]?) := by
  refine ⟨rfl, ?_, ?_⟩
  all_goals
    by_cases hc : m.columns = 0
  · have hd : m.data = [] := List.eq_nil_of_length_eq_zero (hzero.mp hc)
    simp [Matrix.transpose, Matrix.iterCols, hc, hd]
  · have hcpos : 0 < m.columns := Nat.pos_of_ne_zero hc
    have hR : 0 < m.rows := by
      rcases Nat.eq_zero_or_pos m.rows with h0 | h0
      · rw [h0, Nat.zero_mul] at hlen
        exact absurd (hzero.mpr hlen) hc
      · exact h0
    have hcle : m.columns ≤ m.rows * m.columns := Nat.le_mul_of_pos_left _ hR
    have hpiece : ∀ j, j < m.columns →
        (stepBy m.columns (m.data.drop j)).length = m.rows := by
      intro j hj
      apply stepBy_length m.columns hcpos m.rows
      · rw [List.length_drop, hlen]
        exact Nat.sub_le _ _
      · rw [List.length_drop, hlen]
        omega
    have hmapconst : (List.range m.columns).map
        (List.length ∘ fun col => stepBy m.columns (m.data.drop col))
        = List.replicate m.columns m.rows := by
      calc (List.range m.columns).map
            (List.length ∘ fun col => stepBy m.columns (m.data.drop col))
          = (List.range m.columns).map (fun _ => m.rows) :=
            List.map_congr_left (fun j hj => hpiece j (List.mem_range.mp hj))
        _ = List.replicate m.columns m.rows := by
            rw [List.map_const', List.length_range]
    simp only [Matrix.transpose, Matrix.iterCols, List.length_flatten,
      List.map_map, hmapconst, List.sum_replicate, smul_eq_mul]
  · intro n hn
    rw [hc, Nat.zero_mul] at hn
    omega
  · intro n hn
    have hcpos : 0 < m.columns := Nat.pos_of_ne_zero hc
    have hR : 0 < m.rows := by
      rcases Nat.eq_zero_or_pos m.rows with h0 | h0
      · rw [h0, Nat.zero_mul] at hlen
        exact absurd (hzero.mpr hlen) hc
      · exact h0
    have hcle : m.columns ≤ m.rows * m.columns := Nat.le_mul_of_pos_left _ hR
    have hq : n / m.rows < m.columns := (Nat.div_lt_iff_lt_mul hR).mpr hn
    have hs : n % m.rows < m.rows := Nat.mod_lt _ hR
    have hn' : n = (n / m.rows) * m.rows + n % m.rows := by
      calc n = m.rows * (n / m.rows) + n % m.rows := (Nat.div_add_mod n m.rows).symm
        _ = (n / m.rows) * m.rows + n % m.rows := by rw [Nat.mul_comm]
    conv_lhs => rw [show m.transpose.data = m.iterCols.flatten from rfl, hn']
    rw [flatten_getElem?_uniform m.rows m.iterCols
      (by
        intro l hl
        obtain ⟨j, hj, rfl⟩ := List.mem_map.mp hl
        have hcpos' : 0 < m.columns := hcpos
        apply stepBy_length m.columns hcpos' m.rows
        · rw [List.length_drop, hlen]
          exact Nat.sub_le _ _
        · rw [List.length_drop, hlen]
          have := List.mem_range.mp hj
          omega)
      (n / m.rows) (n % m.rows) hs]
    unfold Matrix.iterCols
    rw [List.getElem?_map, List.getElem?_range hq]
    simp only [Option.map_some', Option.some_bind]
    rw [stepBy_getElem? m.columns hcpos m.rows (m.data.drop (n / m.rows))
      (by rw [List.length_drop, hlen]; exact Nat.sub_le _ _)
      (by rw [List.length_drop, hlen]; omega)
      (n % m.rows),
      List.getElem?_drop]
    congr 1
    omega

theorem Matrix.eq_of_fields {α : Type} {m1 m2 : Matrix α}
    (hd : m1.data = m2.data) (hc : m1.columns = m2.columns) : m1 = m2 := by
  cases m1
  cases m2
  simp_all

/-- C7: for every matrix built from equal-length rows, `transpose` swaps
the row and column counts, `transposed[Point{x,y}] = m[Point{y,x}]` for all
in-range `x`, `y`, and transposing twice is the identity. -/
theorem matrix_transpose_spec {α : Type} (m : Matrix α) (h : m.builtFromRows) :
    (m.transpose.columns = m.rows ∧ m.transpose.rows = m.columns)
    ∧ (∀ x y : Nat, x < m.rows → y < m.columns →
        m.transpose.index ⟨x, y⟩ = m.index ⟨y, x⟩)
    ∧ m.transpose.transpose = m := by
  obtain ⟨hlen, hzero⟩ := Matrix.builtFromRows_invariant h
  obtain ⟨hcols, hlen2, helem⟩ := Matrix.transpose_core m hlen hzero
  have hzrows : m.columns = 0 → m.rows = 0 := by
    intro h0
    rw [Matrix.rows_def, h0, Nat.div_zero]
  have hrows2 : m.transpose.rows = m.columns := by
    rw [Matrix.rows_def, hlen2, hcols]
    rcases Nat.eq_zero_or_pos m.rows with h0 | h0
    · have hc0 : m.columns = 0 := by
        rcases Nat.eq_zero_or_pos m.columns with hc | hc
        · exact hc
        · rw [h0, Nat.zero_mul] at hlen
          exact hzero.mpr hlen
      rw [h0, hc0]
    · exact Nat.mul_div_cancel _ h0
  refine ⟨⟨hcols, hrows2⟩, ?_, ?_⟩
  · intro x y hx hy
    have hn : y * m.rows + x < m.columns * m.rows := by
      have hy1 : (y + 1) * m.rows ≤ m.columns * m.rows :=
        Nat.mul_le_mul_right _ (by omega)
      rw [Nat.succ_mul] at hy1
      omega
    have hmod : (y * m.rows + x) % m.rows = x := by
      rw [Nat.mul_comm, Nat.mul_add_mod]
      exact Nat.mod_eq_of_lt hx
    have hdiv : (y * m.rows + x) / m.rows = y := by
      rw [Nat.mul_comm, Nat.mul_add_div (by omega)]
      rw [Nat.div_eq_of_lt hx, Nat.add_zero]
    unfold Matrix.index
    simp only [hcols]
    rw [helem (y * m.rows + x) hn, hmod, hdiv]
  · have hlenT : m.transpose.data.length = m.transpose.rows * m.transpose.columns := by
      rw [hlen2, hrows2, hcols]
    have hzeroT : m.transpose.columns = 0 ↔ m.transpose.data.length = 0 := by
      rw [hcols, hlen2]
      constructor
      · intro h0
        rw [h0, Nat.mul_zero]
      · intro h0
        rcases Nat.eq_zero_or_pos m.rows with hr | hr
        · exact hr
        · rcases Nat.mul_eq_zero.mp h0 with hc | hc
          · exact absurd (hzrows hc) (by omega)
          · exact hc
    obtain ⟨hcolsT, hlen2T, helemT⟩ := Matrix.transpose_core m.transpose hlenT hzeroT
    apply Matrix.eq_of_fields
    · apply List.ext_getElem?
      intro n
      have hlenTT : m.transpose.transpose.data.length = m.data.length := by
        rw [hlen2T, hrows2, hcols, hlen, Nat.mul_comm]
      by_cases hn : n < m.data.length
      · by_cases hc : m.columns = 0
        · exfalso
          rw [hzero.mp hc] at hn
          omega
        · have hcpos : 0 < m.columns := Nat.pos_of_ne_zero hc
          have hR : 0 < m.rows := by
            rcases Nat.eq_zero_or_pos m.rows with h0 | h0
            · rw [h0, Nat.zero_mul] at hlen
              exact absurd (hzero.mpr hlen) hc
            · exact h0
          have hnT : n < m.transpose.columns * m.transpose.rows := by
            rw [hcols, hrows2, ← hlen]
            exact hn
          rw [helemT n hnT]
          have hq : n / m.columns < m.rows := by
            rw [Nat.div_lt_iff_lt_mul hcpos]
            rw [hlen] at hn
            exact hn
          have hs : n % m.columns < m.columns := Nat.mod_lt _ hcpos
          have hk : (n % m.transpose.rows) * m.transpose.columns + n / m.transpose.rows
              = (n % m.columns) * m.rows + n / m.columns := by
            rw [hrows2, hcols]
          rw [hk]
          have hkn : (n % m.columns) * m.rows + n / m.columns
              < m.columns * m.rows := by
            have h1 : (n % m.columns + 1) * m.rows ≤ m.columns * m.rows :=
              Nat.mul_le_mul_right _ (by omega)
            rw [Nat.succ_mul] at h1
            omega
          rw [helem _ hkn]
          have hmod : ((n % m.columns) * m.rows + n / m.columns) % m.rows
              = n / m.columns := by
            rw [Nat.mul_comm, Nat.mul_add_mod]
            exact Nat.mod_eq_of_lt hq
          have hdiv : ((n % m.columns) * m.rows + n / m.columns) / m.rows
              = n % m.columns := by
            rw [Nat.mul_comm, Nat.mul_add_div hR, Nat.div_eq_of_lt hq, Nat.add_zero]
          rw [hmod, hdiv]
          congr 1
          calc n / m.columns * m.columns + n % m.columns
              = m.columns * (n / m.columns) + n % m.columns := by
                rw [Nat.mul_comm]
            _ = n := Nat.div_add_mod n m.columns
      · have h1 : m.data[n]? = none := List.getElem?_eq_none (by omega)
        have h2 : m.transpose.transpose.data[n]? = none := by
          apply List.getElem?_eq_none
          rw [hlenTT]
          omega
        rw [h2, h1]
    · rw [hcolsT, hrows2]

/-- C7 witness: a concrete 2×3 matrix built from rows. -/
theorem matrix_transpose_spec_witness :
    (⟨[1, 2, 3, 4, 5, 6], 3⟩ : Matrix Nat).transpose.transpose
      = ⟨[1, 2, 3, 4, 5, 6], 3⟩ :=
  (matrix_transpose_spec (⟨[1, 2, 3, 4, 5, 6], 3⟩ : Matrix Nat)
    ⟨[[1, 2, 3], [4, 5, 6]], rfl⟩).2.2

end Yuki
